import Mathlib

/-!
# Verification of the News-Translation bridge core

Shallow embedding of `src/index.ts` (a Telegram bridge that translates
Hebrew messages to Arabic through an external responder bot and republishes
them, grouping albums with a 2-second debounce).

Modelling conventions:
* JS strings are Lean `String`; all character-level operations are carried
  out on `String.data : List Char`.
* The insertion-ordered JS `Map` backing `pendingTranslations`
  (index.ts:40-44) is a `List` with append-at-end and head-first iteration,
  which matches JS `Map` insertion-order semantics and
  `map.keys().next().value` (index.ts:243).
* Asynchrony is modelled as an explicit event-driven state machine
  (`CorrState` / `corrStep`): the environment's schedule (issue of a
  `translateWithBot` call, arrival of a responder reply, firing of a 15 s
  timeout, rejection of the outbound send) is a list of `CEvent`s folded
  over the state.  JS promises settle at most once; `resolveOnce` embeds
  that semantics of `resolve`.
* `translationId` (index.ts:62, `Date.now() + random`, collision-free per
  the spec) is modelled as the per-process call counter `nextCall`.
* Album timers are modelled by `debounceRun`: arrivals for one group key
  are processed in time order and a pending flush fires at its deadline
  unless an earlier arrival (strictly before the deadline) resets it.
-/

namespace NewsTranslation

/-- The ECMA-262 whitespace set recognised by JS `String.prototype.trim`
(WhiteSpace ∪ LineTerminator), used at index.ts:34 `text?.trim()`. -/
def isJsWhitespace (c : Char) : Bool :=
  c.toNat = 9 || c.toNat = 10 || c.toNat = 11 || c.toNat = 12 || c.toNat = 13 ||
  c.toNat = 32 || c.toNat = 160 || c.toNat = 5760 ||
  (8192 ≤ c.toNat && c.toNat ≤ 8202) ||
  c.toNat = 8232 || c.toNat = 8233 || c.toNat = 8239 || c.toNat = 8287 ||
  c.toNat = 12288 || c.toNat = 65279

/-- One code point of the Hebrew block U+0590..U+05FF (1424..1535), the
character class of the regex at index.ts:35. -/
def isHebrewChar (c : Char) : Bool :=
  1424 ≤ c.toNat && c.toNat ≤ 1535

/-- JS `s.trim()` on the character list: drop leading and trailing
whitespace. -/
def trimChars (l : List Char) : List Char :=
  ((l.dropWhile isJsWhitespace).reverse.dropWhile isJsWhitespace).reverse

/-- JS `s.trim()`. -/
def jsTrim (s : String) : String := String.mk (trimChars s.data)

/-- index.ts:33-37 `hasHebrew`: false for empty/whitespace-only text,
otherwise true iff the Hebrew-block regex matches. -/
def hasHebrew (text : String) : Bool :=
  if trimChars text.data = [] then false
  else text.data.any isHebrewChar

/-- JS `s.split('\n')` (index.ts:238). -/
def splitNl : List Char → List (List Char)
  | [] => [[]]
  | c :: cs =>
    if c = '\n' then [] :: splitNl cs
    else
      match splitNl cs with
      | [] => [[c]]
      | l :: ls => (c :: l) :: ls

/-- JS `lines.join('\n')` (index.ts:239). -/
def joinNl : List (List Char) → List Char
  | [] => []
  | [l] => l
  | l :: l2 :: ls => l ++ '\n' :: joinNl (l2 :: ls)

/-- Non-empty with a non-whitespace first character (so `trim` leaves the
front alone). -/
def headNotWs : List Char → Bool
  | [] => false
  | c :: _ => !isJsWhitespace c

/-- index.ts:235-239: the reply text is trimmed; if it has at least two
lines the first is dropped and the remainder re-joined and trimmed,
otherwise the trimmed text is used as is. -/
def stripReplyChars (l : List Char) : List Char :=
  let mt := trimChars l
  let lines := splitNl mt
  if 2 ≤ lines.length then trimChars (joinNl (lines.drop 1)) else mt

/-- String-level wrapper for the reply first-line stripping. -/
def stripReply (s : String) : String := String.mk (stripReplyChars s.data)

/-! ## Message and media model

gramjs exposes `msg.photo` and `msg.document` as accessors over
`msg.media`; the model makes that derivation explicit. -/

structure Document where
  mimeType : Option String
  ref : Nat
deriving DecidableEq

inductive Media where
  | photo (ref : Nat)
  | document (d : Document)
  | other (ref : Nat)
deriving DecidableEq

structure Msg where
  id : Nat
  text : Option String
  media : Option Media
deriving DecidableEq

/-- gramjs `msg.photo`: present iff the media is a photo. -/
def Msg.photo : Msg → Option Nat
  | ⟨_, _, some (Media.photo r)⟩ => some r
  | _ => none

/-- gramjs `msg.document`: present iff the media is a document. -/
def Msg.document : Msg → Option Document
  | ⟨_, _, some (Media.document d)⟩ => some d
  | _ => none

/-- `l₁` is an initial run of `l₂`. -/
def startsWithChars : List Char → List Char → Bool
  | [], _ => true
  | _ :: _, [] => false
  | p :: ps, c :: cs => p == c && startsWithChars ps cs

/-- JS `s.startsWith(pre)`. -/
def jsStartsWith (s pre : String) : Bool := startsWithChars pre.data s.data

/-- index.ts:24-26 `isImageDoc`. -/
def isImageDoc : Option Document → Bool
  | some d =>
    match d.mimeType with
    | some mt => jsStartsWith mt "image/"
    | none => false
  | none => false

/-- index.ts:28-30 `isVideoDoc`. -/
def isVideoDoc : Option Document → Bool
  | some d =>
    match d.mimeType with
    | some mt => jsStartsWith mt "video/"
    | none => false
  | none => false

/-- JS `msg.message?.trim() || ""`. -/
def msgTextTrim (m : Msg) : String :=
  match m.text with
  | none => ""
  | some s => jsTrim s

/-! ## Caption composition (index.ts:98-105 and 298-300) -/

/-- JS `username ? ... : ""` then `sourceName = username || "Unknown"`. -/
def sourceNameOf (username : String) : String :=
  if username = "" then "Unknown" else username

/-- JS `caption = translatedText || originalText` (index.ts:103, 299). -/
def captionBody (translatedText originalText : String) : String :=
  if translatedText = "" then originalText else translatedText

/-- The caption template shared verbatim by index.ts:105 and index.ts:300. -/
def composeFullCaption (caption sourceName : String) : String :=
  if caption = "" then "المصدر: " ++ sourceName
  else caption ++ "\n\nالمصدر: " ++ sourceName

/-! ## Album flush (`processAlbum`, index.ts:91-134)

`getChat` and the awaited `translateWithBot` result are environment
inputs, passed as the `username` string and the `translate` oracle. -/

/-- index.ts:94-95: first message whose trimmed text is non-empty. -/
def albumOriginalText (msgs : List Msg) : String :=
  match msgs.find? (fun m => !(msgTextTrim m == "")) with
  | some m => msgTextTrim m
  | none => ""

/-- index.ts:96. -/
def albumTranslatedText (msgs : List Msg) (translate : String → String) : String :=
  if albumOriginalText msgs = "" then "" else translate (albumOriginalText msgs)

/-- index.ts:103-105. -/
def albumFullCaption (msgs : List Msg) (username : String)
    (translate : String → String) : String :=
  composeFullCaption
    (captionBody (albumTranslatedText msgs translate) (albumOriginalText msgs))
    (sourceNameOf username)

/-- The filter of index.ts:110. -/
def qualifiesAlbum (m : Msg) : Bool :=
  m.photo.isSome || (m.media.isSome && (isImageDoc m.document || isVideoDoc m.document))

/-- The map of index.ts:111-120 (photo object, else the media object for a
video or image document, else null). -/
def pickOpt (m : Msg) : Option Media :=
  match m.photo with
  | some r => some (Media.photo r)
  | none =>
    match m.media with
    | some med =>
      if isVideoDoc m.document then some med
      else if isImageDoc m.document then some med
      else none
    | none => none

/-- index.ts:109-121 `mediaFiles`. -/
def albumMediaFiles (msgs : List Msg) : List Media :=
  (msgs.filter qualifiesAlbum).filterMap pickOpt

structure AlbumSend where
  files : List Media
  caption : String
deriving DecidableEq

/-- index.ts:91-134: the grouped publish made by one album flush, `none`
when nothing is sent (empty group, or no qualifying media). -/
def processAlbum (msgs : List Msg) (username : String)
    (translate : String → String) : Option AlbumSend :=
  if msgs.isEmpty then none
  else if (albumMediaFiles msgs).isEmpty then none
  else some ⟨albumMediaFiles msgs, albumFullCaption msgs username translate⟩

/-! ## Single-message path (index.ts:292-331) -/

/-- index.ts:295. -/
def singleTranslatedText (m : Msg) (translate : String → String) : String :=
  if msgTextTrim m = "" then "" else translate (msgTextTrim m)

/-- index.ts:298-300. -/
def singleFullCaption (m : Msg) (username : String)
    (translate : String → String) : String :=
  composeFullCaption
    (captionBody (singleTranslatedText m translate) (msgTextTrim m))
    (sourceNameOf username)

inductive SingleSend where
  | mediaMsg (caption : String) (file : Media)
  | textMsg (caption : String)
deriving DecidableEq

def SingleSend.caption : SingleSend → String
  | .mediaMsg c _ => c
  | .textMsg c => c

/-- index.ts:303-328: the publish made by the single-message path.  With
media present, only a photo, an image document or a video document is
sent (photo checked first, then image, then video, as in the source);
other media falls through the if-chain and nothing is published.  With no
media, the caption is sent as plain text when non-empty. -/
def singleMessagePublish (m : Msg) (username : String)
    (translate : String → String) : Option SingleSend :=
  let fullCaption := singleFullCaption m username translate
  match m.media with
  | some (Media.photo r) => some (.mediaMsg fullCaption (Media.photo r))
  | some (Media.document d) =>
    if isImageDoc (some d) then some (.mediaMsg fullCaption (Media.document d))
    else if isVideoDoc (some d) then some (.mediaMsg fullCaption (Media.document d))
    else none
  | some (Media.other _) => none
  | none => if fullCaption = "" then none else some (.textMsg fullCaption)

/-! ## Album aggregator debounce (index.ts:267-289)

Arrivals for one group key, in time order (milliseconds).  A pending
flush scheduled for `deadline` fires unless a new arrival for the key
comes strictly before it; each arrival resets the deadline to its own
time plus 2000 (index.ts:274, 279). -/

def debLoop {α : Type} : List (Nat × α) → List α → Nat → List (List α)
  | [], cur, _ => [cur]
  | (t, m) :: rest, cur, dl =>
    if t < dl then debLoop rest (cur ++ [m]) (t + 2000)
    else cur :: debLoop rest [m] (t + 2000)

/-- The sequence of flushes produced by a time-ordered arrival stream for
one group key. -/
def debounceRun {α : Type} : List (Nat × α) → List (List α)
  | [] => []
  | (t, m) :: rest => debLoop rest [m] (t + 2000)

/-- Every arrival comes strictly less than 2000 ms after the previous one
(`prev` is the time of the previous arrival). -/
def gapsOk {α : Type} : Nat → List (Nat × α) → Bool
  | _, [] => true
  | prev, (t, _) :: rest => decide (t < prev + 2000) && gapsOk t rest

/-! ## Translation correlator state machine
(`translateWithBot` index.ts:46-86, reply branch index.ts:234-255) -/

structure Pending where
  token : Nat
  originalText : String
deriving DecidableEq

structure CorrState where
  /-- `pendingTranslations` in insertion order (index.ts:40-44). -/
  pending : List Pending
  /-- tokens whose 15 s timeout is still scheduled (not yet fired and not
  cleared by `clearTimeout`). -/
  timers : List Nat
  /-- outbound `"<id>\n<text>"` requests initiated (index.ts:77-78). -/
  sent : List String
  /-- settled promises: `(call, value)` per `resolve` that took effect. -/
  resolved : List (Nat × String)
  /-- closure log: every registered call's `(translationId, text)`. -/
  issued : List (Nat × String)
  /-- call counter; stands in for `Date.now()+random` id generation. -/
  nextCall : Nat
deriving DecidableEq

def initCorr : CorrState := ⟨[], [], [], [], [], 0⟩

/-- Environment schedule events: a `translateWithBot(text)` call, an
inbound responder reply, a 15 s timeout firing, or the outbound send
rejecting. -/
inductive CEvent where
  | issue (text : String)
  | reply (raw : String)
  | fire (tok : Nat)
  | sendFail (tok : Nat)
deriving DecidableEq

/-- JS promise `resolve`: a second settle of the same call is a no-op. -/
def resolveOnce (log : List (Nat × String)) (tok : Nat) (v : String) :
    List (Nat × String) :=
  if tok ∈ log.map Prod.fst then log else log ++ [(tok, v)]

def lookupText (issued : List (Nat × String)) (tok : Nat) : Option String :=
  (issued.find? (fun q => q.1 == tok)).map Prod.snd

/-- One step of the correlator.
* `issue`: index.ts:46-85.  Empty or non-Hebrew text resolves immediately
  with the input (index.ts:47-57); otherwise the entry and its timer are
  registered and the request send is initiated (index.ts:61-78).
* `reply`: index.ts:242-253.  The oldest pending entry (first `Map` key)
  is removed, its timer cleared, and its promise resolved with the
  stripped reply; with no pending entry the reply is discarded.  The
  token inside the reply is never consulted.
* `fire`: the timeout callback index.ts:64-68, which runs only while the
  timer is still scheduled; it deletes the entry and resolves the
  original text from its closure.
* `sendFail`: the catch handler index.ts:79-84 of the send initiated for
  `tok` (so `tok` is a registered call); clears the timer, deletes the
  entry and resolves the original text. -/
def corrStep (s : CorrState) : CEvent → CorrState
  | .issue text =>
    if hasHebrew text then
      { s with
        pending := s.pending ++ [⟨s.nextCall, text⟩],
        timers := s.timers ++ [s.nextCall],
        sent := s.sent ++ [toString s.nextCall ++ "\n" ++ text],
        issued := s.issued ++ [(s.nextCall, text)],
        nextCall := s.nextCall + 1 }
    else
      { s with
        resolved := s.resolved ++ [(s.nextCall, text)],
        nextCall := s.nextCall + 1 }
  | .reply raw =>
    match s.pending with
    | [] => s
    | p :: rest =>
      { s with
        timers := s.timers.erase p.token,
        pending := rest,
        resolved := resolveOnce s.resolved p.token (stripReply raw) }
  | .fire tok =>
    if tok ∈ s.timers then
      { s with
        timers := s.timers.erase tok,
        pending := s.pending.filter (fun p => p.token != tok),
        resolved := resolveOnce s.resolved tok ((lookupText s.issued tok).getD "") }
    else s
  | .sendFail tok =>
    match lookupText s.issued tok with
    | none => s
    | some txt =>
      { s with
        timers := s.timers.erase tok,
        pending := s.pending.filter (fun p => p.token != tok),
        resolved := resolveOnce s.resolved tok txt }

def runCorr (evs : List CEvent) : CorrState :=
  evs.foldl corrStep initCorr

def issueTexts : List CEvent → List String
  | [] => []
  | .issue t :: r => t :: issueTexts r
  | _ :: r => issueTexts r

def replyRaws : List CEvent → List String
  | [] => []
  | .reply t :: r => t :: replyRaws r
  | _ :: r => replyRaws r

/-- The schedule contains only call issues and responder replies (no
timeout fires, i.e. every reply beats the deadline, and no send
failures). -/
def onlyIR : List CEvent → Bool
  | [] => true
  | .issue _ :: r => onlyIR r
  | .reply _ :: r => onlyIR r
  | _ :: _ => false

/-- Every reply finds a pending request: with `k` requests already
pending, no prefix of the schedule has more replies than issued
requests. -/
def fifoOk : Nat → List CEvent → Bool
  | _, [] => true
  | k, .issue _ :: r => fifoOk (k + 1) r
  | k, .reply _ :: r =>
    match k with
    | 0 => false
    | k' + 1 => fifoOk k' r
  | k, .fire _ :: r => fifoOk k r
  | k, .sendFail _ :: r => fifoOk k r

/-- Pending entries for consecutive calls `k, k+1, ...` with the given
texts. -/
def pendFrom (k : Nat) : List String → List Pending
  | [] => []
  | t :: ts => ⟨k, t⟩ :: pendFrom (k + 1) ts

/-- `(k, v₀), (k+1, v₁), ...` -/
def tagFrom (k : Nat) : List String → List (Nat × String)
  | [] => []
  | v :: vs => (k, v) :: tagFrom (k + 1) vs

/-- State invariant of the correlator: the timer set tracks the pending
table exactly, promises settle at most once, pending and settled calls
are disjoint, pending entries carry the text of their registration, and
every registered call is pending or settled. -/
def corrInv (s : CorrState) : Prop :=
  s.timers = s.pending.map Pending.token ∧
  (s.pending.map Pending.token).Nodup ∧
  (s.resolved.map Prod.fst).Nodup ∧
  (∀ p ∈ s.pending, p.token ∉ s.resolved.map Prod.fst) ∧
  (∀ p ∈ s.pending, lookupText s.issued p.token = some p.originalText) ∧
  (s.issued.map Prod.fst).Nodup ∧
  (∀ tok ∈ s.issued.map Prod.fst, tok < s.nextCall) ∧
  (∀ tok ∈ s.resolved.map Prod.fst, tok < s.nextCall) ∧
  (∀ p ∈ s.pending, p.token ∈ s.issued.map Prod.fst) ∧
  (∀ tok ∈ s.issued.map Prod.fst,
    tok ∈ s.pending.map Pending.token ∨ tok ∈ s.resolved.map Prod.fst)

end NewsTranslation

namespace NewsTranslation

/-! ## Generic helper lemmas -/

lemma stringAppendAssoc (a b c : String) : a ++ b ++ c = a ++ (b ++ c) := by
  apply String.ext
  simp [String.data_append, List.append_assoc]

lemma composeNeEmpty (c n : String) : composeFullCaption c n ≠ "" := by
  unfold composeFullCaption
  split
  · intro h
    have h2 : (("المصدر: " : String) ++ n).data = ("" : String).data := by rw [h]
    rw [String.data_append] at h2
    simp at h2
  · intro h
    have h2 : ((c ++ "\n\nالمصدر: " : String) ++ n).data = ("" : String).data := by rw [h]
    rw [String.data_append, String.data_append] at h2
    simp at h2

/-! ## C6: caption composition -/

/-- C6: in both the album-flush path (index.ts:103-105) and the
single-message path (index.ts:298-300), a non-empty caption body `T` with
attribution `A` composes to `T ++ "\n\n" ++ "المصدر" ++ ": " ++ A`, and an
empty body composes to the attribution line `"المصدر" ++ ": " ++ A`
alone. -/
theorem c6_caption_composition (T A : String) (msgs : List Msg) (m : Msg)
    (u : String) (tr : String → String) :
    (T ≠ "" → composeFullCaption T A = T ++ "\n\n" ++ "المصدر" ++ ": " ++ A) ∧
    composeFullCaption "" A = "المصدر" ++ ": " ++ A ∧
    albumFullCaption msgs u tr =
      composeFullCaption
        (captionBody (albumTranslatedText msgs tr) (albumOriginalText msgs))
        (sourceNameOf u) ∧
    singleFullCaption m u tr =
      composeFullCaption
        (captionBody (singleTranslatedText m tr) (msgTextTrim m))
        (sourceNameOf u) := by
  refine ⟨?_, ?_, rfl, rfl⟩
  · intro hT
    unfold composeFullCaption
    rw [if_neg hT]
    have hlit : ("\n\nالمصدر: " : String) = "\n\n" ++ "المصدر" ++ ": " := by decide
    rw [hlit]
    simp only [stringAppendAssoc]
  · unfold composeFullCaption
    rw [if_pos rfl]
    have hlit : ("المصدر: " : String) = "المصدر" ++ ": " := by decide
    rw [hlit]

/-- C6 witness at a concrete caption body and attribution. -/
theorem c6_caption_composition_witness :
    composeFullCaption "سلام" "chan" =
      "سلام" ++ "\n\n" ++ "المصدر" ++ ": " ++ "chan" :=
  (c6_caption_composition "سلام" "chan" [] ⟨0, none, none⟩ "" id).1
    (by decide)

/-! ## C10: caption body falls back to the original text -/

/-- C10: the caption body published by both paths equals the translated
text when it is non-empty and otherwise the original text (index.ts:103,
index.ts:299); in particular an empty translation result with a non-empty
original yields the original, never an empty body. -/
theorem c10_caption_fallback (trT orig : String) (msgs : List Msg) (m : Msg)
    (u : String) (tr : String → String) :
    (trT = "" → captionBody trT orig = orig) ∧
    (trT ≠ "" → captionBody trT orig = trT) ∧
    (∀ send, processAlbum msgs u tr = some send →
      send.caption =
        composeFullCaption
          (captionBody (albumTranslatedText msgs tr) (albumOriginalText msgs))
          (sourceNameOf u)) ∧
    (∀ send, singleMessagePublish m u tr = some send →
      send.caption =
        composeFullCaption
          (captionBody (singleTranslatedText m tr) (msgTextTrim m))
          (sourceNameOf u)) := by
  refine ⟨?_, ?_, ?_, ?_⟩
  · intro h; unfold captionBody; rw [if_pos h]
  · intro h; unfold captionBody; rw [if_neg h]
  · intro send h
    unfold processAlbum at h
    split at h
    · exact absurd h (by simp)
    · split at h
      · exact absurd h (by simp)
      · rw [← Option.some.inj h]
        rfl
  · intro send h
    obtain ⟨mid, mtext, mmedia⟩ := m
    match mmedia with
    | none =>
      simp only [singleMessagePublish] at h
      split at h
      · exact absurd h (by simp)
      · rw [← Option.some.inj h]
        rfl
    | some (Media.photo r) =>
      simp only [singleMessagePublish] at h
      rw [← Option.some.inj h]
      rfl
    | some (Media.document d) =>
      simp only [singleMessagePublish] at h
      split at h
      · rw [← Option.some.inj h]
        rfl
      · split at h
        · rw [← Option.some.inj h]
          rfl
        · exact absurd h (by simp)
    | some (Media.other r) =>
      simp only [singleMessagePublish] at h
      exact absurd h (by simp)

/-- C10 witness: a concrete message whose translation oracle yields the
empty string is published with the original text as caption body. -/
theorem c10_caption_fallback_witness :
    (SingleSend.textMsg "היי\n\nالمصدر: chan").caption =
      composeFullCaption
        (captionBody
          (singleTranslatedText ⟨1, some "היי", none⟩ (fun _ => ""))
          (msgTextTrim ⟨1, some "היי", none⟩))
        (sourceNameOf "chan") :=
  (c10_caption_fallback "" "היי" [] ⟨1, some "היי", none⟩ "chan"
      (fun _ => "")).2.2.2 (SingleSend.textMsg "היי\n\nالمصدر: chan") (by decide)

end NewsTranslation

namespace NewsTranslation


lemma wsNotHeb (c : Char) (h : isJsWhitespace c = true) : isHebrewChar c = false := by
  unfold isJsWhitespace at h
  unfold isHebrewChar
  simp only [Bool.or_eq_true, decide_eq_true_eq, Bool.and_eq_true] at h
  simp only [Bool.and_eq_false_iff, decide_eq_false_iff_not, not_le]
  omega

lemma allWsTrimNil (l : List Char) (h : ∀ c ∈ l, isJsWhitespace c = true) :
    trimChars l = [] := by
  unfold trimChars
  rw [List.dropWhile_eq_nil_iff.mpr h]
  simp

lemma trimNilAllWs (l : List Char) (h : trimChars l = []) :
    ∀ c ∈ l, isJsWhitespace c = true := by
  unfold trimChars at h
  rw [List.reverse_eq_nil_iff, List.dropWhile_eq_nil_iff] at h
  intro c hc
  have hsplit := List.takeWhile_append_dropWhile isJsWhitespace l
  rw [← hsplit] at hc
  rcases List.mem_append.mp hc with h1 | h1
  · exact List.mem_takeWhile_imp h1
  · exact h c (List.mem_reverse.mpr h1)

lemma hasHebrewEqAny (s : String) : hasHebrew s = s.data.any isHebrewChar := by
  unfold hasHebrew
  split
  · rename_i h
    have hall := trimNilAllWs s.data h
    have : s.data.any isHebrewChar = false := by
      rw [List.any_eq_false]
      intro c hc
      rw [wsNotHeb c (hall c hc)]
      simp
    rw [this]
  · rfl

/-- C4: `hasHebrew` (the source-script detector, index.ts:33-37) returns
true iff some code point of the text lies in U+0590..U+05FF, and in
particular false on empty or whitespace-only text; for any text that is
whitespace-only or has no such code point, a `translateWithBot` call
(`issue` step, index.ts:46-57) resolves immediately with the input
unchanged, registers no pending entry and no timer, and initiates no
outbound request. -/
theorem c4_source_script_gate (s : CorrState) (text : String) :
    (hasHebrew text = true ↔ ∃ c ∈ text.data, isHebrewChar c = true) ∧
    ((∀ c ∈ text.data, isJsWhitespace c = true) → hasHebrew text = false) ∧
    ((∀ c ∈ text.data, isJsWhitespace c = true) ∨ text.data.any isHebrewChar = false →
      (corrStep s (.issue text)).pending = s.pending ∧
      (corrStep s (.issue text)).timers = s.timers ∧
      (corrStep s (.issue text)).sent = s.sent ∧
      (corrStep s (.issue text)).resolved = s.resolved ++ [(s.nextCall, text)]) := by
  have hchar := hasHebrewEqAny text
  refine ⟨?_, ?_, ?_⟩
  · rw [hchar, List.any_eq_true]
  · intro h
    rw [hchar, List.any_eq_false]
    intro c hc
    rw [wsNotHeb c (h c hc)]
    simp
  · intro h
    have hfalse : hasHebrew text = false := by
      rcases h with h | h
      · rw [hchar, List.any_eq_false]
        intro c hc
        rw [wsNotHeb c (h c hc)]
        simp
      · rw [hchar, h]
    simp [corrStep, hfalse]

/-- C4 witness: Latin-only text takes the early return. -/
theorem c4_source_script_gate_witness :
    (corrStep initCorr (.issue "hello")).pending = initCorr.pending ∧
    (corrStep initCorr (.issue "hello")).timers = initCorr.timers ∧
    (corrStep initCorr (.issue "hello")).sent = initCorr.sent ∧
    (corrStep initCorr (.issue "hello")).resolved =
      initCorr.resolved ++ [(initCorr.nextCall, "hello")] :=
  (c4_source_script_gate initCorr "hello").2.2 (Or.inr (by decide))



lemma dropWhileOfHeadNotWs (l : List Char) (h : headNotWs l = true) :
    l.dropWhile isJsWhitespace = l := by
  match l with
  | [] => simp [headNotWs] at h
  | c :: cs =>
    unfold headNotWs at h
    rw [Bool.not_eq_true'] at h
    simp [List.dropWhile, h]

lemma trimOfEnds (l : List Char) (h1 : headNotWs l = true)
    (h2 : headNotWs l.reverse = true) : trimChars l = l := by
  unfold trimChars
  rw [dropWhileOfHeadNotWs l h1, dropWhileOfHeadNotWs l.reverse h2,
      List.reverse_reverse]

lemma headNotWsAppend (l r : List Char) (h : headNotWs l = true) :
    headNotWs (l ++ r) = true := by
  match l with
  | [] => simp [headNotWs] at h
  | c :: cs => simpa [headNotWs] using h

lemma splitNlNeNil (l : List Char) : splitNl l ≠ [] := by
  match l with
  | [] => simp [splitNl]
  | c :: cs =>
    unfold splitNl
    split
    · simp
    · split
      · simp
      · simp

lemma joinSplitNl (l : List Char) : joinNl (splitNl l) = l := by
  induction l with
  | nil => rfl
  | cons c cs ih =>
    unfold splitNl
    split
    · rename_i hc
      cases h : splitNl cs with
      | nil => exact absurd h (splitNlNeNil cs)
      | cons l2 ls =>
        rw [h] at ih
        show joinNl ([] :: l2 :: ls) = c :: cs
        show [] ++ '\n' :: joinNl (l2 :: ls) = c :: cs
        rw [ih, hc]
        rfl
    · rename_i hc
      cases h : splitNl cs with
      | nil => exact absurd h (splitNlNeNil cs)
      | cons l2 ls =>
        rw [h] at ih
        show joinNl ((c :: l2) :: ls) = c :: cs
        cases ls with
        | nil =>
          show c :: l2 = c :: cs
          rw [show joinNl [l2] = l2 from rfl] at ih
          rw [ih]
        | cons l3 ls2 =>
          show (c :: l2) ++ '\n' :: joinNl (l3 :: ls2) = c :: cs
          rw [show joinNl (l2 :: l3 :: ls2) = l2 ++ '\n' :: joinNl (l3 :: ls2) from rfl] at ih
          rw [List.cons_append, ih]

lemma splitNlAppend (label rest : List Char) (h : '\n' ∉ label) :
    splitNl (label ++ '\n' :: rest) = label :: splitNl rest := by
  induction label with
  | nil =>
    show splitNl ('\n' :: rest) = [] :: splitNl rest
    simp [splitNl]
  | cons c cs ih =>
    have hc : ¬(c = '\n') := fun hh => h (hh ▸ List.mem_cons_self c cs)
    have ih2 := ih (fun hm => h (List.mem_cons_of_mem c hm))
    show splitNl (c :: (cs ++ '\n' :: rest)) = (c :: cs) :: splitNl rest
    simp only [splitNl]
    rw [if_neg hc, ih2]

lemma stripReplyCharsPayload (label payload : List Char)
    (h1 : headNotWs label = true)
    (h2 : '\n' ∉ label)
    (h3 : headNotWs payload = true)
    (h4 : headNotWs payload.reverse = true) :
    stripReplyChars (label ++ '\n' :: payload) = payload := by
  have htrim : trimChars (label ++ '\n' :: payload) = label ++ '\n' :: payload := by
    apply trimOfEnds
    · exact headNotWsAppend _ _ h1
    · rw [List.reverse_append, List.reverse_cons, List.append_assoc]
      exact headNotWsAppend _ _ h4
  have hsplit := splitNlAppend label payload h2
  show (if 2 ≤ (splitNl (trimChars (label ++ '\n' :: payload))).length
        then trimChars (joinNl ((splitNl (trimChars (label ++ '\n' :: payload))).drop 1))
        else trimChars (label ++ '\n' :: payload)) = payload
  rw [htrim, hsplit]
  have hlen : 2 ≤ (label :: splitNl payload).length := by
    cases h : splitNl payload with
    | nil => exact absurd h (splitNlNeNil payload)
    | cons a b => simp
  rw [if_pos hlen]
  show trimChars (joinNl (splitNl payload)) = payload
  rw [joinSplitNl, trimOfEnds payload h3 h4]

lemma stripReplyPayload (label payload : String)
    (h1 : headNotWs label.data = true)
    (h2 : '\n' ∉ label.data)
    (h3 : headNotWs payload.data = true)
    (h4 : headNotWs payload.data.reverse = true) :
    stripReply (label ++ "\n" ++ payload) = payload := by
  have hdata : (label ++ "\n" ++ payload).data = label.data ++ '\n' :: payload.data := by
    rw [String.data_append, String.data_append, List.append_assoc]
    rfl
  unfold stripReply
  rw [hdata, stripReplyCharsPayload label.data payload.data h1 h2 h3 h4]

/-- C5: an inbound responder message (index.ts:234-253) is trimmed, its
first line is stripped, and the remainder — re-joined and trimmed — is
delivered to the oldest pending request, whose entry and timer are
removed; in particular a reply `"<label>\n<payload>"` (single-line label
with no leading whitespace, payload with no leading or trailing
whitespace) resolves the oldest pending call to exactly `<payload>`. -/
theorem c5_reply_first_line_strip (label payload : String) (s : CorrState)
    (p : Pending) (rest : List Pending)
    (h1 : headNotWs label.data = true)
    (h2 : '\n' ∉ label.data)
    (h3 : headNotWs payload.data = true)
    (h4 : headNotWs payload.data.reverse = true) :
    stripReply (label ++ "\n" ++ payload) = payload ∧
    (s.pending = p :: rest →
      (corrStep s (.reply (label ++ "\n" ++ payload))).pending = rest ∧
      (corrStep s (.reply (label ++ "\n" ++ payload))).timers = s.timers.erase p.token ∧
      (corrStep s (.reply (label ++ "\n" ++ payload))).resolved =
        resolveOnce s.resolved p.token payload) := by
  have hstrip := stripReplyPayload label payload h1 h2 h3 h4
  refine ⟨hstrip, fun hp => ?_⟩
  simp [corrStep, hp, hstrip]

/-- C5 witness: the spec scenario reply `"العربية: 1\nمرحبا"` resolves the
single pending request to `"مرحبا"`. -/
theorem c5_reply_first_line_strip_witness :
    stripReply ("العربية: 1" ++ "\n" ++ "مرحبا") = "مرحبا" ∧
    (corrStep (runCorr [.issue "שלום"]) (.reply ("العربية: 1" ++ "\n" ++ "مرحبا"))).resolved =
      resolveOnce (runCorr [.issue "שלום"]).resolved 0 "مرحبا" := by
  have h := c5_reply_first_line_strip "العربية: 1" "مرحبا" (runCorr [.issue "שלום"])
    ⟨0, "שלום"⟩ [] (by decide) (by decide) (by decide) (by decide)
  exact ⟨h.1, (h.2 (by decide)).2.2⟩



lemma debLoopNil {α : Type} (cur : List α) (dl : Nat) :
    debLoop ([] : List (Nat × α)) cur dl = [cur] := rfl

lemma debLoopCons {α : Type} (t : Nat) (m : α) (rest : List (Nat × α))
    (cur : List α) (dl : Nat) :
    debLoop ((t, m) :: rest) cur dl =
      if t < dl then debLoop rest (cur ++ [m]) (t + 2000)
      else cur :: debLoop rest [m] (t + 2000) := rfl

lemma debLoopFlatten {α : Type} (l : List (Nat × α)) :
    ∀ (cur : List α) (dl : Nat), (debLoop l cur dl).flatten = cur ++ l.map Prod.snd := by
  induction l with
  | nil => intro cur dl; simp [debLoop]
  | cons hd tl ih =>
    intro cur dl
    obtain ⟨t, m⟩ := hd
    unfold debLoop
    split
    · rw [ih]
      simp
    · rw [List.flatten_cons, ih]
      simp

lemma debLoopSmall {α : Type} (l : List (Nat × α)) :
    ∀ (cur : List α) (prev : Nat), gapsOk prev l = true →
      debLoop l cur (prev + 2000) = [cur ++ l.map Prod.snd] := by
  induction l with
  | nil => intro cur prev _; simp [debLoop]
  | cons hd tl ih =>
    intro cur prev hg
    obtain ⟨t, m⟩ := hd
    unfold gapsOk at hg
    rw [Bool.and_eq_true, decide_eq_true_eq] at hg
    unfold debLoop
    rw [if_pos hg.1, ih (cur ++ [m]) t hg.2]
    simp

lemma debLoopSplit {α : Type} (pre : List (Nat × α)) :
    ∀ (cur : List α) (dl t : Nat) (m : α) (t2 : Nat) (m2 : α) (post : List (Nat × α)),
      t + 2000 ≤ t2 →
      debLoop (pre ++ (t, m) :: (t2, m2) :: post) cur dl =
        debLoop (pre ++ [(t, m)]) cur dl ++ debLoop post [m2] (t2 + 2000) := by
  induction pre with
  | nil =>
    intro cur dl t m t2 m2 post hgap
    have hno : ¬(t2 < t + 2000) := by omega
    by_cases h : t < dl
    · simp only [List.nil_append, debLoopCons, debLoopNil, if_pos h, if_neg hno]
      rfl
    · simp only [List.nil_append, debLoopCons, debLoopNil, if_neg h, if_neg hno]
      rfl
  | cons hd tl ih =>
    intro cur dl t m t2 m2 post hgap
    obtain ⟨s0, q⟩ := hd
    by_cases h : s0 < dl
    · simp only [List.cons_append, debLoopCons, if_pos h]
      exact ih _ _ t m t2 m2 post hgap
    · simp only [List.cons_append, debLoopCons, if_neg h]
      rw [ih _ _ t m t2 m2 post hgap]

/-- C2: for a time-ordered burst of messages sharing one album group key
(index.ts:267-289): (a) when every message arrives strictly less than
2000 ms after the previous one, exactly one flush occurs and it carries
all messages in arrival order; (b) the flushes partition the arrivals —
every group is flushed at most once and no message is flushed twice;
(c) a message arriving 2000 ms or more after the previous one starts a
separate flush: the run splits into the run up to the earlier message
and the run from the later one. -/
theorem c2_album_debounce (α : Type) (xs : List (Nat × α)) :
    (∀ t0 m0 rest, xs = (t0, m0) :: rest → gapsOk t0 rest = true →
      debounceRun xs = [xs.map Prod.snd]) ∧
    (debounceRun xs).flatten = xs.map Prod.snd ∧
    (∀ pre t m t2 m2 post, xs = pre ++ (t, m) :: (t2, m2) :: post → t + 2000 ≤ t2 →
      debounceRun xs = debounceRun (pre ++ [(t, m)]) ++ debounceRun ((t2, m2) :: post)) := by
  refine ⟨?_, ?_, ?_⟩
  · intro t0 m0 rest hxs hg
    subst hxs
    show debLoop rest [m0] (t0 + 2000) = _
    rw [debLoopSmall rest [m0] t0 hg]
    simp
  · match xs with
    | [] => rfl
    | (t, m) :: rest =>
      show (debLoop rest [m] (t + 2000)).flatten = _
      rw [debLoopFlatten]
      simp
  · intro pre t m t2 m2 post hxs hgap
    subst hxs
    match pre with
    | [] =>
      show debLoop ((t2, m2) :: post) [m] (t + 2000) = _
      have hno : ¬(t2 < t + 2000) := by omega
      simp only [debLoopCons, if_neg hno]
      rfl
    | (s0, q) :: tl =>
      show debLoop (tl ++ (t, m) :: (t2, m2) :: post) [q] (s0 + 2000) = _
      rw [debLoopSplit tl [q] (s0 + 2000) t m t2 m2 post hgap]
      rfl

/-- C2 witness: the spec scenario — arrivals at 0 ms and 500 ms, then a
third 2500 ms later — splits into two flushes. -/
theorem c2_album_debounce_witness :
    debounceRun [((0 : Nat), (1 : Nat)), (500, 2), (3000, 3)] =
      debounceRun [(0, 1), (500, 2)] ++ debounceRun [(3000, 3)] :=
  (c2_album_debounce Nat [(0, 1), (500, 2), (3000, 3)]).2.2
    [(0, 1)] 500 2 3000 3 [] rfl (by omega)



lemma qualifiesPickSome (m : Msg) (h : qualifiesAlbum m = true) :
    ∃ x, pickOpt m = some x := by
  obtain ⟨mid, mtext, mmedia⟩ := m
  match mmedia with
  | none => simp [qualifiesAlbum, Msg.photo, Msg.document] at h
  | some (Media.photo r) => exact ⟨Media.photo r, rfl⟩
  | some (Media.document d) =>
    simp only [qualifiesAlbum, Msg.photo, Msg.document, Option.isSome_none,
      Option.isSome_some, Bool.false_or, Bool.true_and] at h
    show ∃ x, (if isVideoDoc (some d) then some (Media.document d)
      else if isImageDoc (some d) then some (Media.document d) else none) = some x
    rcases Bool.or_eq_true_iff.mp h with h1 | h1
    · rw [h1]
      by_cases h2 : isVideoDoc (some d) = true
      · rw [if_pos h2]; exact ⟨_, rfl⟩
      · rw [if_neg h2, if_pos rfl]; exact ⟨_, rfl⟩
    · rw [if_pos h1]; exact ⟨_, rfl⟩
  | some (Media.other r) =>
    simp [qualifiesAlbum, Msg.photo, Msg.document, isImageDoc, isVideoDoc] at h

lemma filterMapAllSomeLength {α β : Type} (f : α → Option β) (l : List α)
    (h : ∀ a ∈ l, ∃ b, f a = some b) : (l.filterMap f).length = l.length := by
  induction l with
  | nil => rfl
  | cons a tl ih =>
    obtain ⟨b, hb⟩ := h a (List.mem_cons_self a tl)
    rw [List.filterMap_cons, hb]
    simp only [List.length_cons]
    rw [ih (fun x hx => h x (List.mem_cons_of_mem a hx))]

/-- C7: one album flush (index.ts:107-130) publishes exactly one grouped
send whose media count equals the number of group messages carrying a
qualifying payload — a photo, or a document whose MIME type starts with
`image/` or `video/` — and publishes nothing at all when no message
qualifies. -/
theorem c7_album_media_publish (msgs : List Msg) (u : String)
    (tr : String → String) :
    (albumMediaFiles msgs).length = (msgs.filter qualifiesAlbum).length ∧
    ((msgs.filter qualifiesAlbum).length = 0 → processAlbum msgs u tr = none) ∧
    (0 < (msgs.filter qualifiesAlbum).length →
      processAlbum msgs u tr = some ⟨albumMediaFiles msgs, albumFullCaption msgs u tr⟩ ∧
      (albumMediaFiles msgs).length = (msgs.filter qualifiesAlbum).length) := by
  have hlen : (albumMediaFiles msgs).length = (msgs.filter qualifiesAlbum).length := by
    unfold albumMediaFiles
    exact filterMapAllSomeLength pickOpt (msgs.filter qualifiesAlbum)
      (fun m hm => qualifiesPickSome m (List.of_mem_filter hm))
  refine ⟨hlen, ?_, ?_⟩
  · intro h0
    have hempty : albumMediaFiles msgs = [] := by
      rw [← List.length_eq_zero]
      omega
    unfold processAlbum
    rw [hempty]
    simp
  · intro hpos
    constructor
    · have h1 : ¬(msgs.isEmpty = true) := by
        intro h
        rw [List.isEmpty_iff] at h
        rw [h] at hpos
        simp at hpos
      have h2 : ¬((albumMediaFiles msgs).isEmpty = true) := by
        intro h
        rw [List.isEmpty_iff] at h
        rw [h] at hlen
        simp at hlen
        omega
      unfold processAlbum
      rw [if_neg h1, if_neg h2]
    · exact hlen

/-- C7 witness: a photo plus a video document plus an audio document give
one grouped publish with exactly two media items. -/
theorem c7_album_media_publish_witness :
    processAlbum
        [⟨1, some "שלום", some (Media.photo 3)⟩,
         ⟨2, none, some (Media.document ⟨some "video/mp4", 4⟩)⟩,
         ⟨3, none, some (Media.document ⟨some "audio/mpeg", 5⟩)⟩]
        "chan" (fun _ => "هلا") =
      some ⟨albumMediaFiles
        [⟨1, some "שלום", some (Media.photo 3)⟩,
         ⟨2, none, some (Media.document ⟨some "video/mp4", 4⟩)⟩,
         ⟨3, none, some (Media.document ⟨some "audio/mpeg", 5⟩)⟩],
        albumFullCaption
        [⟨1, some "שלום", some (Media.photo 3)⟩,
         ⟨2, none, some (Media.document ⟨some "video/mp4", 4⟩)⟩,
         ⟨3, none, some (Media.document ⟨some "audio/mpeg", 5⟩)⟩]
        "chan" (fun _ => "هلا")⟩ :=
  ((c7_album_media_publish _ "chan" (fun _ => "هلا")).2.2 (by decide)).1



/-- C9 counterexample: the single-message path does not publish "any
single attached media item" — a message whose media is an audio document
produces no publish at all — and its caption carries no per-message
attribution link: two messages identical except for their message id get
the identical caption (the attribution names only the channel
username). -/
theorem c9_single_message_counterexample :
    singleMessagePublish ⟨5, some "שלום", some (Media.document ⟨some "audio/mpeg", 7⟩)⟩
      "chan" (fun _ => "ترجمة") = none ∧
    singleFullCaption ⟨1, some "שלום", some (Media.photo 3)⟩ "chan" (fun _ => "ترجمة") =
      singleFullCaption ⟨2, some "שלום", some (Media.photo 3)⟩ "chan" (fun _ => "ترجمة") := by
  constructor
  · rfl
  · rfl

/-- C9 (amended): for a message from an allowed source with no group
identity, the single-message path (index.ts:292-331) translates its text
when present and composes the caption from the translated-or-original
text plus an attribution line naming the source channel's username (or
`Unknown`) — the same per-channel attribution as the album path, not a
per-message link.  It publishes with the attached media item when that
media is a photo or an image/video document, publishes the caption as
plain text when there is no media, and publishes nothing when the media
is of any other kind. -/
theorem c9_single_message_path (m : Msg) (u : String) (tr : String → String) :
    (m.media = none →
      singleMessagePublish m u tr = some (.textMsg (singleFullCaption m u tr))) ∧
    (∀ r, m.media = some (Media.photo r) →
      singleMessagePublish m u tr =
        some (.mediaMsg (singleFullCaption m u tr) (Media.photo r))) ∧
    (∀ d, m.media = some (Media.document d) →
      (isImageDoc (some d) || isVideoDoc (some d)) = true →
      singleMessagePublish m u tr =
        some (.mediaMsg (singleFullCaption m u tr) (Media.document d))) ∧
    (∀ d, m.media = some (Media.document d) →
      isImageDoc (some d) = false → isVideoDoc (some d) = false →
      singleMessagePublish m u tr = none) ∧
    (∀ r, m.media = some (Media.other r) →
      singleMessagePublish m u tr = none) ∧
    singleFullCaption m u tr =
      composeFullCaption
        (captionBody (singleTranslatedText m tr) (msgTextTrim m))
        (sourceNameOf u) := by
  refine ⟨?_, ?_, ?_, ?_, ?_, rfl⟩
  · intro hm
    simp only [singleMessagePublish, hm]
    rw [if_neg (show ¬(singleFullCaption m u tr = "") from composeNeEmpty _ _)]
  · intro r hm
    simp only [singleMessagePublish, hm]
  · intro d hm himgvid
    simp only [singleMessagePublish, hm]
    rcases Bool.or_eq_true_iff.mp himgvid with h1 | h1
    · rw [if_pos h1]
    · by_cases h2 : isImageDoc (some d) = true
      · rw [if_pos h2]
      · rw [if_neg h2, if_pos h1]
  · intro d hm himg hvid
    simp [singleMessagePublish, hm, himg, hvid]
  · intro r hm
    simp only [singleMessagePublish, hm]

/-- C9 witness: a photo message is published with its photo and the
composed caption. -/
theorem c9_single_message_path_witness :
    singleMessagePublish ⟨1, some "שלום", some (Media.photo 3)⟩ "chan" (fun _ => "هلا") =
      some (.mediaMsg
        (singleFullCaption ⟨1, some "שלום", some (Media.photo 3)⟩ "chan" (fun _ => "هلا"))
        (Media.photo 3)) :=
  (c9_single_message_path ⟨1, some "שלום", some (Media.photo 3)⟩ "chan"
      (fun _ => "هلا")).2.1 3 rfl



/-! ## Correlator step equations and small helpers -/

lemma corrStepIssueHeb (s : CorrState) (t : String) (h : hasHebrew t = true) :
    corrStep s (.issue t) =
      { s with pending := s.pending ++ [⟨s.nextCall, t⟩],
               timers := s.timers ++ [s.nextCall],
               sent := s.sent ++ [toString s.nextCall ++ "\n" ++ t],
               issued := s.issued ++ [(s.nextCall, t)],
               nextCall := s.nextCall + 1 } := by
  simp [corrStep, h]

lemma corrStepIssueNoHeb (s : CorrState) (t : String) (h : hasHebrew t = false) :
    corrStep s (.issue t) =
      { s with resolved := s.resolved ++ [(s.nextCall, t)],
               nextCall := s.nextCall + 1 } := by
  simp [corrStep, h]

lemma corrStepReplyNil (s : CorrState) (raw : String) (h : s.pending = []) :
    corrStep s (.reply raw) = s := by
  simp [corrStep, h]

lemma corrStepReplyCons (s : CorrState) (raw : String) (p : Pending)
    (rest : List Pending) (h : s.pending = p :: rest) :
    corrStep s (.reply raw) =
      { s with timers := s.timers.erase p.token,
               pending := rest,
               resolved := resolveOnce s.resolved p.token (stripReply raw) } := by
  simp [corrStep, h]

lemma corrStepFireMem (s : CorrState) (tok : Nat) (h : tok ∈ s.timers) :
    corrStep s (.fire tok) =
      { s with timers := s.timers.erase tok,
               pending := s.pending.filter (fun p => p.token != tok),
               resolved := resolveOnce s.resolved tok
                 ((lookupText s.issued tok).getD "") } := by
  simp [corrStep, h]

lemma corrStepFireNot (s : CorrState) (tok : Nat) (h : tok ∉ s.timers) :
    corrStep s (.fire tok) = s := by
  simp [corrStep, h]

lemma corrStepSendFailNone (s : CorrState) (tok : Nat)
    (h : lookupText s.issued tok = none) :
    corrStep s (.sendFail tok) = s := by
  simp [corrStep, h]

lemma corrStepSendFailSome (s : CorrState) (tok : Nat) (txt : String)
    (h : lookupText s.issued tok = some txt) :
    corrStep s (.sendFail tok) =
      { s with timers := s.timers.erase tok,
               pending := s.pending.filter (fun p => p.token != tok),
               resolved := resolveOnce s.resolved tok txt } := by
  simp [corrStep, h]

lemma resolveOnceNotMem (log : List (Nat × String)) (tok : Nat) (v : String)
    (h : tok ∉ log.map Prod.fst) : resolveOnce log tok v = log ++ [(tok, v)] := by
  unfold resolveOnce
  rw [if_neg h]

lemma resolveOnceMemSelf (log : List (Nat × String)) (tok : Nat) (v : String) :
    tok ∈ (resolveOnce log tok v).map Prod.fst := by
  unfold resolveOnce
  split
  · assumption
  · simp

lemma resolveOnceMono (log : List (Nat × String)) (tok a : Nat) (v : String)
    (h : a ∈ log.map Prod.fst) : a ∈ (resolveOnce log tok v).map Prod.fst := by
  unfold resolveOnce
  split
  · exact h
  · simp only [List.map_append, List.mem_append]
    exact Or.inl h

lemma lookupTextAppendOfSome (iss l2 : List (Nat × String)) (tok : Nat)
    (txt : String) (h : lookupText iss tok = some txt) :
    lookupText (iss ++ l2) tok = some txt := by
  unfold lookupText at h ⊢
  rw [List.find?_append]
  match hf : iss.find? (fun q => q.1 == tok) with
  | none => rw [hf] at h; simp at h
  | some q => rw [hf] at h; rw [hf]; simpa using h

lemma lookupTextNew (iss : List (Nat × String)) (tok : Nat) (t : String)
    (h : ∀ k ∈ iss.map Prod.fst, k ≠ tok) :
    lookupText (iss ++ [(tok, t)]) tok = some t := by
  unfold lookupText
  rw [List.find?_append]
  have hnone : iss.find? (fun q => q.1 == tok) = none := by
    rw [List.find?_eq_none]
    intro q hq
    simp only [beq_iff_eq]
    exact h q.1 (List.mem_map_of_mem Prod.fst hq)
  rw [hnone]
  simp [List.find?]

lemma lookupTextMem (iss : List (Nat × String)) (tok : Nat) (txt : String)
    (h : lookupText iss tok = some txt) : tok ∈ iss.map Prod.fst := by
  unfold lookupText at h
  match hf : iss.find? (fun q => q.1 == tok) with
  | none => rw [hf] at h; simp at h
  | some q =>
    have hmem := List.mem_of_find?_eq_some hf
    have hpred := List.find?_some hf
    simp only [beq_iff_eq] at hpred
    rw [← hpred]
    exact List.mem_map_of_mem Prod.fst hmem



lemma nodupSnoc {α : Type} (l : List α) (a : α) (h : l.Nodup) (ha : a ∉ l) :
    (l ++ [a]).Nodup := by
  rw [List.nodup_append]
  refine ⟨h, List.nodup_singleton a, ?_⟩
  intro x hx hxa
  rw [List.mem_singleton] at hxa
  exact ha (hxa ▸ hx)

lemma mapTokenFilter (l : List Pending) (tok : Nat) :
    (l.filter (fun p => p.token != tok)).map Pending.token =
      (l.map Pending.token).filter (fun x => x != tok) := by
  induction l with
  | nil => rfl
  | cons p rest ih =>
    by_cases h : (p.token != tok) = true
    · simp [List.filter_cons, h, ih]
    · simp [List.filter_cons, h, ih]

/-- Removing one pending entry `tok` and settling it — the common shape of
the timeout path (index.ts:64-68) and the send-failure path
(index.ts:79-84) — preserves the correlator invariant. -/
lemma corrInvRemove (s : CorrState) (tok : Nat) (v : String) (hinv : corrInv s)
    (hp : tok ∈ s.pending.map Pending.token) :
    corrInv { s with timers := s.timers.erase tok,
                     pending := s.pending.filter (fun p => p.token != tok),
                     resolved := resolveOnce s.resolved tok v } := by
  obtain ⟨h1, h2, h3, h4, h5, h6, h7, h8, h9, h10⟩ := hinv
  obtain ⟨p0, hp0, hp0tok⟩ := List.mem_map.mp hp
  have htokiss : tok ∈ s.issued.map Prod.fst := hp0tok ▸ h9 p0 hp0
  have htoklt : tok < s.nextCall := h7 tok htokiss
  have hnotres : tok ∉ s.resolved.map Prod.fst := hp0tok ▸ h4 p0 hp0
  have hres' : resolveOnce s.resolved tok v = s.resolved ++ [(tok, v)] :=
    resolveOnceNotMem s.resolved tok v hnotres
  refine ⟨?_, ?_, ?_, ?_, ?_, h6, h7, ?_, ?_, ?_⟩
  · show s.timers.erase tok = _
    rw [h1, List.Nodup.erase_eq_filter h2 tok, mapTokenFilter]
  · show ((s.pending.filter (fun p => p.token != tok)).map Pending.token).Nodup
    rw [mapTokenFilter]
    exact List.Nodup.filter _ h2
  · show ((resolveOnce s.resolved tok v).map Prod.fst).Nodup
    rw [hres', List.map_append]
    exact nodupSnoc _ tok h3 hnotres
  · intro q hq
    obtain ⟨hqmem, hqne⟩ := List.mem_filter.mp hq
    rw [bne_iff_ne] at hqne
    rw [hres', List.map_append, List.mem_append]
    rintro (hin | hin)
    · exact h4 q hqmem hin
    · rw [List.map_singleton, List.mem_singleton] at hin
      exact hqne hin
  · intro q hq
    exact h5 q (List.mem_of_mem_filter hq)
  · show ∀ k ∈ (resolveOnce s.resolved tok v).map Prod.fst, k < s.nextCall
    rw [hres', List.map_append]
    intro k hk
    rcases List.mem_append.mp hk with hin | hin
    · exact h8 k hin
    · rw [List.map_singleton, List.mem_singleton] at hin
      exact hin ▸ htoklt
  · intro q hq
    exact h9 q (List.mem_of_mem_filter hq)
  · intro k hk
    rw [hres', List.map_append]
    rcases h10 k hk with hin | hin
    · obtain ⟨q, hqmem, hqtok⟩ := List.mem_map.mp hin
      by_cases hk2 : k = tok
      · right
        rw [List.mem_append, List.map_singleton, List.mem_singleton]
        exact Or.inr hk2
      · left
        rw [List.mem_map]
        refine ⟨q, List.mem_filter.mpr ⟨hqmem, ?_⟩, hqtok⟩
        rw [bne_iff_ne, hqtok]
        exact hk2
    · right
      rw [List.mem_append]
      exact Or.inl hin

/-- Every correlator step preserves the invariant. -/
lemma corrInvStep (s : CorrState) (e : CEvent) (hinv : corrInv s) :
    corrInv (corrStep s e) := by
  obtain ⟨h1, h2, h3, h4, h5, h6, h7, h8, h9, h10⟩ := id hinv
  have hpk : ∀ p ∈ s.pending, p.token < s.nextCall :=
    fun p hp => h7 p.token (h9 p hp)
  match e with
  | .issue t =>
    by_cases hh : hasHebrew t = true
    · rw [corrStepIssueHeb s t hh]
      have hknotpend : s.nextCall ∉ s.pending.map Pending.token := by
        intro hmem
        obtain ⟨q, hqmem, hqtok⟩ := List.mem_map.mp hmem
        exact absurd (hqtok ▸ hpk q hqmem) (lt_irrefl s.nextCall)
      have hknotiss : s.nextCall ∉ s.issued.map Prod.fst := by
        intro hmem
        exact absurd (h7 _ hmem) (lt_irrefl s.nextCall)
      have hknotres : s.nextCall ∉ s.resolved.map Prod.fst := by
        intro hmem
        exact absurd (h8 _ hmem) (lt_irrefl s.nextCall)
      refine ⟨?_, ?_, h3, ?_, ?_, ?_, ?_, ?_, ?_, ?_⟩
      · show s.timers ++ [s.nextCall] = _
        rw [h1, List.map_append]
        rfl
      · show ((s.pending ++ [(⟨s.nextCall, t⟩ : Pending)]).map Pending.token).Nodup
        rw [List.map_append]
        exact nodupSnoc _ _ h2 hknotpend
      · intro q hq
        rcases List.mem_append.mp hq with hin | hin
        · exact h4 q hin
        · rw [List.mem_singleton] at hin
          subst hin
          exact hknotres
      · intro q hq
        rcases List.mem_append.mp hq with hin | hin
        · exact lookupTextAppendOfSome _ _ _ _ (h5 q hin)
        · rw [List.mem_singleton] at hin
          subst hin
          exact lookupTextNew s.issued s.nextCall t
            (fun k hk => Nat.ne_of_lt (h7 k hk))
      · show ((s.issued ++ [(s.nextCall, t)]).map Prod.fst).Nodup
        rw [List.map_append]
        exact nodupSnoc _ _ h6 hknotiss
      · intro k hk
        rw [List.map_append] at hk
        rcases List.mem_append.mp hk with hin | hin
        · exact Nat.lt_succ_of_lt (h7 k hin)
        · rw [List.map_singleton, List.mem_singleton] at hin
          subst hin
          exact Nat.lt_succ_self _
      · intro k hk
        exact Nat.lt_succ_of_lt (h8 k hk)
      · intro q hq
        rw [List.map_append, List.mem_append]
        rcases List.mem_append.mp hq with hin | hin
        · exact Or.inl (h9 q hin)
        · rw [List.mem_singleton] at hin
          subst hin
          right
          simp
      · intro k hk
        rw [List.map_append] at hk
        rcases List.mem_append.mp hk with hin | hin
        · rcases h10 k hin with hin2 | hin2
          · left
            rw [List.map_append, List.mem_append]
            exact Or.inl hin2
          · exact Or.inr hin2
        · rw [List.map_singleton, List.mem_singleton] at hin
          subst hin
          left
          rw [List.map_append, List.mem_append]
          right
          simp
    · rw [Bool.not_eq_true] at hh
      rw [corrStepIssueNoHeb s t hh]
      have hknotres : s.nextCall ∉ s.resolved.map Prod.fst := by
        intro hmem
        exact absurd (h8 _ hmem) (lt_irrefl s.nextCall)
      refine ⟨h1, h2, ?_, ?_, h5, h6, ?_, ?_, h9, ?_⟩
      · show ((s.resolved ++ [(s.nextCall, t)]).map Prod.fst).Nodup
        rw [List.map_append]
        exact nodupSnoc _ _ h3 hknotres
      · intro q hq
        rw [List.map_append, List.mem_append]
        rintro (hin | hin)
        · exact h4 q hq hin
        · simp at hin
          exact absurd (hin ▸ hpk q hq) (lt_irrefl s.nextCall)
      · intro k hk
        exact Nat.lt_succ_of_lt (h7 k hk)
      · intro k hk
        rw [List.map_append] at hk
        rcases List.mem_append.mp hk with hin | hin
        · exact Nat.lt_succ_of_lt (h8 k hin)
        · rw [List.map_singleton, List.mem_singleton] at hin
          subst hin
          exact Nat.lt_succ_self _
      · intro k hk
        rcases h10 k hk with hin | hin
        · exact Or.inl hin
        · right
          rw [List.map_append, List.mem_append]
          exact Or.inl hin
  | .reply raw =>
    match hp : s.pending with
    | [] =>
      rw [corrStepReplyNil s raw hp]
      exact ⟨h1, h2, h3, h4, h5, h6, h7, h8, h9, h10⟩
    | p :: rest =>
      rw [corrStepReplyCons s raw p rest hp]
      have hpmem : p ∈ s.pending := hp ▸ List.mem_cons_self p rest
      have hptokiss : p.token ∈ s.issued.map Prod.fst := h9 p hpmem
      have hpnotres : p.token ∉ s.resolved.map Prod.fst := h4 p hpmem
      have hres' : resolveOnce s.resolved p.token (stripReply raw) =
          s.resolved ++ [(p.token, stripReply raw)] :=
        resolveOnceNotMem _ _ _ hpnotres
      have h2c : (s.pending.map Pending.token).Nodup := h2
      rw [hp, List.map_cons] at h2c
      have hrestnodup := (List.nodup_cons.mp h2c).2
      have hpnotrest := (List.nodup_cons.mp h2c).1
      refine ⟨?_, hrestnodup, ?_, ?_, ?_, h6, h7, ?_, ?_, ?_⟩
      · show s.timers.erase p.token = rest.map Pending.token
        rw [h1, hp, List.map_cons, List.erase_cons_head]
      · rw [hres', List.map_append]
        exact nodupSnoc _ _ h3 hpnotres
      · intro q hq
        have hqmem : q ∈ s.pending := hp ▸ List.mem_cons_of_mem p hq
        rw [hres', List.map_append, List.mem_append]
        rintro (hin | hin)
        · exact h4 q hqmem hin
        · simp at hin
          exact hpnotrest (hin ▸ List.mem_map_of_mem Pending.token hq)
      · intro q hq
        exact h5 q (hp ▸ List.mem_cons_of_mem p hq)
      · intro k hk
        rw [hres', List.map_append] at hk
        rcases List.mem_append.mp hk with hin | hin
        · exact h8 k hin
        · rw [List.map_singleton, List.mem_singleton] at hin
          exact hin ▸ h7 p.token hptokiss
      · intro q hq
        exact h9 q (hp ▸ List.mem_cons_of_mem p hq)
      · intro k hk
        rw [hres', List.map_append]
        rcases h10 k hk with hin | hin
        · rw [hp, List.map_cons, List.mem_cons] at hin
          rcases hin with hin2 | hin2
          · right
            rw [List.mem_append, List.map_singleton, List.mem_singleton]
            exact Or.inr hin2
          · exact Or.inl hin2
        · right
          rw [List.mem_append]
          exact Or.inl hin
  | .fire tok =>
    by_cases ht : tok ∈ s.timers
    · rw [corrStepFireMem s tok ht]
      exact corrInvRemove s tok ((lookupText s.issued tok).getD "") hinv
        (h1 ▸ ht)
    · rw [corrStepFireNot s tok ht]
      exact ⟨h1, h2, h3, h4, h5, h6, h7, h8, h9, h10⟩
  | .sendFail tok =>
    match hl : lookupText s.issued tok with
    | none =>
      rw [corrStepSendFailNone s tok hl]
      exact ⟨h1, h2, h3, h4, h5, h6, h7, h8, h9, h10⟩
    | some txt =>
      rw [corrStepSendFailSome s tok txt hl]
      have htokiss : tok ∈ s.issued.map Prod.fst := lookupTextMem _ _ _ hl
      by_cases hpmem : tok ∈ s.pending.map Pending.token
      · exact corrInvRemove s tok txt hinv hpmem
      · have htokres : tok ∈ s.resolved.map Prod.fst := by
          rcases h10 tok htokiss with hin | hin
          · exact absurd hin hpmem
          · exact hin
        have e1 : s.timers.erase tok = s.timers :=
          List.erase_of_not_mem (h1 ▸ hpmem)
        have e2 : s.pending.filter (fun p => p.token != tok) = s.pending := by
          rw [List.filter_eq_self]
          intro q hq
          rw [bne_iff_ne]
          intro hq2
          exact hpmem (hq2 ▸ List.mem_map_of_mem Pending.token hq)
        have e3 : resolveOnce s.resolved tok txt = s.resolved := by
          unfold resolveOnce
          rw [if_pos htokres]
        rw [e1, e2, e3]
        exact ⟨h1, h2, h3, h4, h5, h6, h7, h8, h9, h10⟩



lemma corrInvInit : corrInv initCorr := by
  refine ⟨rfl, ?_, ?_, ?_, ?_, ?_, ?_, ?_, ?_, ?_⟩ <;> simp [initCorr]

lemma corrInvFold (evs : List CEvent) :
    ∀ (s : CorrState), corrInv s → corrInv (List.foldl corrStep s evs) := by
  induction evs with
  | nil => intro s h; exact h
  | cons e rest ih =>
    intro s h
    exact ih (corrStep s e) (corrInvStep s e h)

lemma corrInvRun (evs : List CEvent) : corrInv (runCorr evs) :=
  corrInvFold evs initCorr corrInvInit

lemma resolvedMonoStep (s : CorrState) (e : CEvent) (tok : Nat)
    (h : tok ∈ s.resolved.map Prod.fst) :
    tok ∈ (corrStep s e).resolved.map Prod.fst := by
  match e with
  | .issue t =>
    by_cases hh : hasHebrew t = true
    · rw [corrStepIssueHeb s t hh]
      exact h
    · rw [Bool.not_eq_true] at hh
      rw [corrStepIssueNoHeb s t hh]
      show tok ∈ (s.resolved ++ [(s.nextCall, t)]).map Prod.fst
      rw [List.map_append, List.mem_append]
      exact Or.inl h
  | .reply raw =>
    match hp : s.pending with
    | [] => rw [corrStepReplyNil s raw hp]; exact h
    | p :: rest =>
      rw [corrStepReplyCons s raw p rest hp]
      exact resolveOnceMono _ _ _ _ h
  | .fire tok2 =>
    by_cases ht : tok2 ∈ s.timers
    · rw [corrStepFireMem s tok2 ht]
      exact resolveOnceMono _ _ _ _ h
    · rw [corrStepFireNot s tok2 ht]; exact h
  | .sendFail tok2 =>
    match hl : lookupText s.issued tok2 with
    | none => rw [corrStepSendFailNone s tok2 hl]; exact h
    | some txt =>
      rw [corrStepSendFailSome s tok2 txt hl]
      exact resolveOnceMono _ _ _ _ h

lemma resolvedMonoFold (evs : List CEvent) :
    ∀ (s : CorrState) (tok : Nat), tok ∈ s.resolved.map Prod.fst →
      tok ∈ (List.foldl corrStep s evs).resolved.map Prod.fst := by
  induction evs with
  | nil => intro s tok h; exact h
  | cons e rest ih =>
    intro s tok h
    exact ih (corrStep s e) tok (resolvedMonoStep s e tok h)

/-- After the 15 s timer of a registered call fires, that call is settled:
either its entry was still pending (and the timeout resolves it) or it
had already been resolved (and its timer had been cleared). -/
lemma fireSettles (s : CorrState) (tok : Nat) (hinv : corrInv s)
    (hiss : tok ∈ s.issued.map Prod.fst) :
    tok ∈ (corrStep s (.fire tok)).resolved.map Prod.fst := by
  obtain ⟨h1, h2, h3, h4, h5, h6, h7, h8, h9, h10⟩ := hinv
  by_cases ht : tok ∈ s.timers
  · rw [corrStepFireMem s tok ht]
    exact resolveOnceMemSelf _ _ _
  · rw [corrStepFireNot s tok ht]
    rcases h10 tok hiss with hin | hin
    · exact absurd (h1 ▸ hin) ht
    · exact hin

/-- C8: on every schedule, the final correlator state keeps its timer set
equal to the pending-table tokens (entries and timers are removed
together on every exit path, so neither can outgrow the other), each
call is settled at most once, a pending entry is never one that has
already been settled, and whenever the 15 s timer of a registered call
fires, that call ends the run settled — so each registered translation
settles exactly once even when a timeout races a late reply. -/
theorem c8_pending_cleanup (evs : List CEvent) :
    (runCorr evs).timers = (runCorr evs).pending.map Pending.token ∧
    ((runCorr evs).resolved.map Prod.fst).Nodup ∧
    (∀ p ∈ (runCorr evs).pending, p.token ∉ (runCorr evs).resolved.map Prod.fst) ∧
    (∀ pre tok post, evs = pre ++ CEvent.fire tok :: post →
      tok ∈ (runCorr pre).issued.map Prod.fst →
      tok ∈ (runCorr evs).resolved.map Prod.fst) := by
  obtain ⟨h1, h2, h3, h4, h5, h6, h7, h8, h9, h10⟩ := id (corrInvRun evs)
  refine ⟨h1, h3, h4, ?_⟩
  intro pre tok post hevs hiss
  rw [hevs]
  show tok ∈ (List.foldl corrStep initCorr (pre ++ CEvent.fire tok :: post)).resolved.map Prod.fst
  rw [List.foldl_append]
  show tok ∈ (List.foldl corrStep
    (corrStep (runCorr pre) (CEvent.fire tok)) post).resolved.map Prod.fst
  exact resolvedMonoFold post _ tok (fireSettles (runCorr pre) tok (corrInvRun pre) hiss)

/-- C8 witness: one registered call whose timer fires is settled, and the
final state's timer set matches its pending table. -/
theorem c8_pending_cleanup_witness :
    0 ∈ (runCorr [CEvent.issue "שלום", CEvent.fire 0]).resolved.map Prod.fst :=
  (c8_pending_cleanup [CEvent.issue "שלום", CEvent.fire 0]).2.2.2
    [CEvent.issue "שלום"] 0 [] rfl (by decide)

/-- C3: for any reachable correlator state, if a registered call is still
pending when its 15 s timeout fires (no reply arrived before the
deadline, index.ts:64-68), or when its outbound send fails
(index.ts:79-84), then in the resulting state that pending entry and its
timer are gone and the call's promise is resolved with the original
input text — the failure is absorbed, never propagated (`corrStep` is
total and always yields a successor state). -/
theorem c3_timeout_sendfail_fallback (evs : List CEvent) (p : Pending)
    (hp : p ∈ (runCorr evs).pending) :
    ((∀ q ∈ (corrStep (runCorr evs) (.fire p.token)).pending, q.token ≠ p.token) ∧
      p.token ∉ (corrStep (runCorr evs) (.fire p.token)).timers ∧
      (p.token, p.originalText) ∈ (corrStep (runCorr evs) (.fire p.token)).resolved) ∧
    ((∀ q ∈ (corrStep (runCorr evs) (.sendFail p.token)).pending, q.token ≠ p.token) ∧
      p.token ∉ (corrStep (runCorr evs) (.sendFail p.token)).timers ∧
      (p.token, p.originalText) ∈ (corrStep (runCorr evs) (.sendFail p.token)).resolved) := by
  obtain ⟨h1, h2, h3, h4, h5, h6, h7, h8, h9, h10⟩ := id (corrInvRun evs)
  set s := runCorr evs with hs
  have htmem : p.token ∈ s.timers := by
    rw [h1]
    exact List.mem_map_of_mem Pending.token hp
  have hlk : lookupText s.issued p.token = some p.originalText := h5 p hp
  have hnotres : p.token ∉ s.resolved.map Prod.fst := h4 p hp
  have hres' : ∀ v, resolveOnce s.resolved p.token v = s.resolved ++ [(p.token, v)] :=
    fun v => resolveOnceNotMem _ _ _ hnotres
  have hfilter : ∀ q ∈ s.pending.filter (fun q => q.token != p.token),
      q.token ≠ p.token := by
    intro q hq
    have := (List.mem_filter.mp hq).2
    rwa [bne_iff_ne] at this
  have herase : p.token ∉ s.timers.erase p.token := by
    rw [h1]
    exact List.Nodup.not_mem_erase h2
  constructor
  · rw [corrStepFireMem s p.token htmem]
    refine ⟨hfilter, herase, ?_⟩
    show (p.token, p.originalText) ∈ resolveOnce s.resolved p.token
      ((lookupText s.issued p.token).getD "")
    rw [hlk]
    rw [hres' _]
    simp
  · rw [corrStepSendFailSome s p.token p.originalText hlk]
    refine ⟨hfilter, herase, ?_⟩
    rw [hres' _]
    simp

/-- C3 witness: the single pending call, timed out, resolves to its
original text with entry and timer removed. -/
theorem c3_timeout_sendfail_fallback_witness :
    (Pending.mk 0 "שלום").token ∉
      (corrStep (runCorr [CEvent.issue "שלום"]) (.fire (Pending.mk 0 "שלום").token)).timers ∧
    ((Pending.mk 0 "שלום").token, (Pending.mk 0 "שלום").originalText) ∈
      (corrStep (runCorr [CEvent.issue "שלום"]) (.fire (Pending.mk 0 "שלום").token)).resolved := by
  have h := c3_timeout_sendfail_fallback [CEvent.issue "שלום"] (Pending.mk 0 "שלום")
    (by decide)
  exact ⟨h.1.2.1, h.1.2.2⟩



lemma fifoLe (evs : List CEvent) :
    ∀ (k : Nat), fifoOk k evs = true →
      (replyRaws evs).length ≤ k + (issueTexts evs).length := by
  induction evs with
  | nil => intro k _; simp [replyRaws, issueTexts]
  | cons e rest ih =>
    intro k h
    match e with
    | .issue t =>
      simp only [fifoOk] at h
      have := ih (k + 1) h
      simp only [replyRaws, issueTexts, List.length_cons]
      omega
    | .reply raw =>
      simp only [fifoOk] at h
      match k with
      | 0 => simp at h
      | k2 + 1 =>
        have := ih k2 h
        simp only [replyRaws, issueTexts, List.length_cons]
        omega
    | .fire tok =>
      simp only [fifoOk] at h
      have := ih k h
      simp only [replyRaws, issueTexts]
      omega
    | .sendFail tok =>
      simp only [fifoOk] at h
      have := ih k h
      simp only [replyRaws, issueTexts]
      omega

lemma zipPendTag (vs : List String) :
    ∀ (ts : List String) (k : Nat), vs.length ≤ ts.length →
      List.zipWith (fun (p : Pending) v => (p.token, v)) (pendFrom k ts) vs =
        tagFrom k vs := by
  induction vs with
  | nil => intro ts k _; simp [tagFrom]
  | cons v vs2 ih =>
    intro ts k hlen
    match ts with
    | [] => simp at hlen
    | t :: ts2 =>
      show List.zipWith _ ((⟨k, t⟩ : Pending) :: pendFrom (k + 1) ts2) (v :: vs2) = _
      rw [List.zipWith_cons_cons]
      show (k, v) :: _ = (k, v) :: tagFrom (k + 1) vs2
      rw [ih ts2 (k + 1) (by simpa using hlen)]

lemma c1Aux (evs : List CEvent) :
    ∀ (s : CorrState),
      onlyIR evs = true →
      (∀ t ∈ issueTexts evs, hasHebrew t = true) →
      fifoOk s.pending.length evs = true →
      (∀ p ∈ s.pending, p.token < s.nextCall) →
      (∀ k ∈ s.resolved.map Prod.fst, k < s.nextCall) →
      (s.pending.map Pending.token).Nodup →
      (∀ p ∈ s.pending, p.token ∉ s.resolved.map Prod.fst) →
      (List.foldl corrStep s evs).resolved =
        s.resolved ++ List.zipWith (fun (p : Pending) v => (p.token, v))
          (s.pending ++ pendFrom s.nextCall (issueTexts evs))
          ((replyRaws evs).map stripReply) := by
  induction evs with
  | nil =>
    intro s _ _ _ _ _ _ _
    simp [replyRaws, issueTexts, pendFrom]
  | cons e rest ih =>
    intro s honly hheb hfifo hltp hltr hnd hdisj
    match e with
    | .issue t =>
      simp only [onlyIR] at honly
      have ht : hasHebrew t = true := hheb t (by simp [issueTexts])
      have hheb2 : ∀ t2 ∈ issueTexts rest, hasHebrew t2 = true := by
        intro t2 ht2
        exact hheb t2 (by simp [issueTexts, ht2])
      simp only [fifoOk] at hfifo
      show (List.foldl corrStep (corrStep s (.issue t)) rest).resolved = _
      rw [corrStepIssueHeb s t ht]
      set p1 : Pending := ⟨s.nextCall, t⟩ with hp1
      have hknotpend : s.nextCall ∉ s.pending.map Pending.token := by
        intro hmem
        obtain ⟨q, hqmem, hqtok⟩ := List.mem_map.mp hmem
        exact absurd (hqtok ▸ hltp q hqmem) (lt_irrefl s.nextCall)
      have ihres := ih
        { s with pending := s.pending ++ [p1],
                 timers := s.timers ++ [s.nextCall],
                 sent := s.sent ++ [toString s.nextCall ++ "\n" ++ t],
                 issued := s.issued ++ [(s.nextCall, t)],
                 nextCall := s.nextCall + 1 }
        honly hheb2
        (by
          show fifoOk (s.pending ++ [p1]).length rest = true
          rw [List.length_append, List.length_singleton]
          exact hfifo)
        (by
          intro q hq
          rcases List.mem_append.mp hq with hin | hin
          · exact Nat.lt_succ_of_lt (hltp q hin)
          · rw [List.mem_singleton] at hin
            subst hin
            exact Nat.lt_succ_self _)
        (by
          intro k hk
          exact Nat.lt_succ_of_lt (hltr k hk))
        (by
          show ((s.pending ++ [p1]).map Pending.token).Nodup
          rw [List.map_append]
          exact nodupSnoc _ _ hnd hknotpend)
        (by
          intro q hq
          rcases List.mem_append.mp hq with hin | hin
          · exact hdisj q hin
          · rw [List.mem_singleton] at hin
            subst hin
            intro hmem
            exact absurd (hltr _ hmem) (lt_irrefl s.nextCall))
      rw [ihres]
      show s.resolved ++ _ = s.resolved ++ _
      congr 1
      show List.zipWith _ ((s.pending ++ [p1]) ++ pendFrom (s.nextCall + 1) (issueTexts rest)) _ = _
      rw [List.append_assoc]
      show List.zipWith _ (s.pending ++ (p1 :: pendFrom (s.nextCall + 1) (issueTexts rest)))
        ((replyRaws rest).map stripReply) = _
      rfl
    | .reply raw =>
      simp only [onlyIR] at honly
      have hheb2 : ∀ t2 ∈ issueTexts rest, hasHebrew t2 = true := by
        intro t2 ht2
        exact hheb t2 (by simp [issueTexts, ht2])
      match hp : s.pending with
      | [] =>
        rw [hp] at hfifo
        simp [fifoOk] at hfifo
      | p :: prest =>
        rw [hp] at hfifo
        simp only [List.length_cons, fifoOk] at hfifo
        have hpmem : p ∈ s.pending := hp ▸ List.mem_cons_self p prest
        have hpnotres : p.token ∉ s.resolved.map Prod.fst := hdisj p hpmem
        have hndc : ((p :: prest).map Pending.token).Nodup := hp ▸ hnd
        rw [List.map_cons] at hndc
        have hpnotprest := (List.nodup_cons.mp hndc).1
        have hndrest := (List.nodup_cons.mp hndc).2
        show (List.foldl corrStep (corrStep s (.reply raw)) rest).resolved = _
        rw [corrStepReplyCons s raw p prest hp,
            resolveOnceNotMem _ _ _ hpnotres]
        have ihres := ih
          { s with timers := s.timers.erase p.token,
                   pending := prest,
                   resolved := s.resolved ++ [(p.token, stripReply raw)] }
          honly hheb2 hfifo
          (by
            intro q hq
            exact hltp q (hp ▸ List.mem_cons_of_mem p hq))
          (by
            intro k hk
            show k < s.nextCall
            rw [List.map_append] at hk
            rcases List.mem_append.mp hk with hin | hin
            · exact hltr k hin
            · simp at hin
              exact hin ▸ hltp p hpmem)
          hndrest
          (by
            intro q hq
            have hqmem : q ∈ s.pending := hp ▸ List.mem_cons_of_mem p hq
            rw [List.map_append, List.mem_append]
            rintro (hin | hin)
            · exact hdisj q hqmem hin
            · simp at hin
              exact hpnotprest (hin ▸ List.mem_map_of_mem Pending.token hq))
        rw [ihres, List.append_assoc]
        rfl
    | .fire tok => simp [onlyIR] at honly
    | .sendFail tok => simp [onlyIR] at honly

/-- C1: under a schedule of concurrent `translateWithBot` calls on
source-script texts interleaved with responder replies such that each
reply finds a pending request (in particular N calls answered by N
replies in issue order, each before its deadline), every inbound reply
resolves exactly the oldest currently-pending request regardless of the
token in the reply text, so the i-th issued call resolves to the stripped
payload of the i-th reply. -/
theorem c1_fifo_resolution (evs : List CEvent)
    (h1 : onlyIR evs = true)
    (h2 : ∀ t ∈ issueTexts evs, hasHebrew t = true)
    (h3 : fifoOk 0 evs = true) :
    (runCorr evs).resolved = tagFrom 0 ((replyRaws evs).map stripReply) := by
  have haux := c1Aux evs initCorr h1 h2 h3
    (by simp [initCorr]) (by simp [initCorr]) (by simp [initCorr]) (by simp [initCorr])
  show (List.foldl corrStep initCorr evs).resolved = _
  rw [haux]
  show List.zipWith _ (pendFrom 0 (issueTexts evs)) ((replyRaws evs).map stripReply) = _
  apply zipPendTag
  rw [List.length_map]
  simpa using fifoLe evs 0 h3

/-- C1 witness: two concurrent calls and two in-order replies resolve
call 0 to the first reply's payload and call 1 to the second's. -/
theorem c1_fifo_resolution_witness :
    (runCorr [CEvent.issue "שלום", CEvent.reply "العربية: 0\nمرحبا",
              CEvent.issue "תודה", CEvent.reply "العربية: 1\nشكرا"]).resolved =
      tagFrom 0 ((replyRaws [CEvent.issue "שלום", CEvent.reply "العربية: 0\nمرحبا",
              CEvent.issue "תודה", CEvent.reply "العربية: 1\nشكرا"]).map stripReply) :=
  c1_fifo_resolution _ (by decide) (by decide) (by decide)


end NewsTranslation
